import Mathlib

/-!
Shallow embedding of the GVE generation model (`models/gve.py`) and proofs of
the specification claims about it.

Conventions of the embedding:
* Tensor scalars (floats in the source) are modelled as rationals `ℚ`; the
  log-sum-exp claims, which are about the real functions `exp`/`log`, are
  modelled over `ℝ` in a separate section.
* The two library LSTMs (`nn.LSTM`, single layer, batch_first) are modelled as
  explicit step functions `Cell : LSTMState → Vec → Vec × LSTMState`
  (state in, input in; output and new state out), the standard state-passing
  reading of a one-layer recurrent cell; `models/gve.py` never looks inside
  them.  `nn.LSTM`'s default zero initial state is `zeroState`.
* Randomness (dropout masks, `Categorical.sample` plus its `log_prob`) is made
  explicit as oracle inputs: a dropout site takes a position-indexed multiplier
  field, and the sampler takes `rng : Nat → Nat → Vec → Nat × ℚ`
  (step index, batch index, logits ↦ drawn token and its log-probability).
* A batch of size `B` is a function `Fin B → _` for the generation loop
  (mirroring fixed-batch tensors), and a `List` for the teacher-forced forward
  pass (where packing reorders rows).
-/

set_option maxHeartbeats 1000000

/-- A dense vector of rationals (one row of a tensor). -/
abbrev Vec := List ℚ

/-- The `(hidden, cell)` state pair of one LSTM layer. -/
abbrev LSTMState := Vec × Vec

/-- One step of a single-layer recurrent cell: old state and input produce the
step output and the new state.  `nn.LSTM` (batch_first, one layer, one
timestep) has this shape with output equal to the new hidden state; the
claims do not depend on the cell internals, so it is kept abstract as data. -/
abbrev Cell := LSTMState → Vec → Vec × LSTMState

/-- Dot product of two vectors (`zipWith` truncates, matching well-formed use). -/
def dot (v w : Vec) : ℚ := (List.zipWith (· * ·) v w).sum

/-- Matrix-vector product; the matrix is a list of rows. -/
def matVec (m : List Vec) (v : Vec) : Vec := m.map (fun r => dot r v)

/-- An affine layer `W x + b`, as in `nn.Linear`. -/
def linearMap (w : List Vec) (b : Vec) (x : Vec) : Vec :=
  List.zipWith (· + ·) (matVec w x) b

/-- Elementwise rectified linear unit, as in `F.relu`. -/
def reluVec (v : Vec) : Vec := v.map (fun a => max a 0)

/-- Index of the first maximal entry of a vector (`tensor.max(dim)[1]`). -/
def argmaxIdx (l : List ℚ) : Nat :=
  (l.enum.foldl (fun acc p => if p.2 > acc.2 then p else acc) (0, l.headD 0)).1

/-- Weight state of the GVE model (`GVE.__init__`): embedding table, the two
affine layers, the two LSTM stages, and the configuration sizes. -/
structure GVE where
  word_embed : List Vec
  linear1_w : List Vec
  linear1_b : Vec
  lstm1 : Cell
  lstm2 : Cell
  linear2_w : List Vec
  linear2_b : Vec
  hidden_size : Nat
  num_classes : Nat

/-- `self.word_embed(t)`: embedding-table lookup of one token index. -/
def GVE.lookup (g : GVE) (t : Nat) : Vec := g.word_embed.getD t []

/-- `self.output_size = vocab_size`: the width of the output projection. -/
def GVE.output_size (g : GVE) : Nat := g.linear2_w.length

/-- The zero initial LSTM state that `nn.LSTM` uses when no state is passed. -/
def zeroState (g : GVE) : LSTMState :=
  (List.replicate g.hidden_size 0, List.replicate g.hidden_size 0)

/-- `GVE.convert_onehot`: `torch.zeros(B, num_classes).scatter_(1,
labels.unsqueeze(1), 1)` — row `i` carries a `1` exactly at column
`labels[i]` and `0` elsewhere. -/
def GVE.convert_onehot (g : GVE) (labels : List Nat) : List Vec :=
  labels.map (fun l => (List.range g.num_classes).map (fun j => if j = l then (1 : ℚ) else 0))

/-! ### Autoregressive generation (`GVE.generate_sentence`) -/

/-- The mutable loop state of `generate_sentence`, one field per Python local:
the fused conditioning tensor `image_features` (after `linear1`/`relu`/concat
with the one-hot label), the current input embedding, the two LSTM states, the
`reached_end` mask, the accumulated `sampled_ids` and `log_probabilities`
columns (one entry per executed step), the sampling-mode `lengths` counter and
the loop counter `i`. -/
structure GenState (B : Nat) where
  fusion : Fin B → Vec
  embedded_word : Fin B → Vec
  lstm1_states : Fin B → LSTMState
  lstm2_states : Fin B → LSTMState
  reached_end : Fin B → Bool
  sampled_ids : List (Fin B → Nat)
  log_probabilities : List (Fin B → ℚ)
  lengths : Fin B → Nat
  step_idx : Nat

/-- One step of stage 1: `self.lstm1(lstm1_input, lstm1_states)` per batch
element. -/
def lstm1Step (g : GVE) {B : Nat} (s : GenState B) : Fin B → Vec × LSTMState :=
  fun b => g.lstm1 (s.lstm1_states b) (s.embedded_word b)

/-- `torch.cat((image_features, lstm1_output), 2)`: the stage-2 input is the
fused conditioning vector concatenated with the stage-1 output. -/
def stage2Input (g : GVE) {B : Nat} (s : GenState B) : Fin B → Vec :=
  fun b => s.fusion b ++ (lstm1Step g s b).1

/-- One step of stage 2: `self.lstm2(lstm1_output, lstm2_states)`. -/
def lstm2Step (g : GVE) {B : Nat} (s : GenState B) : Fin B → Vec × LSTMState :=
  fun b => g.lstm2 (s.lstm2_states b) (stage2Input g s b)

/-- `self.linear2(lstm2_output.squeeze(1))`: the per-element vocabulary
logits of the current step. -/
def stepLogits (g : GVE) {B : Nat} (s : GenState B) : Fin B → Vec :=
  fun b => linearMap g.linear2_w g.linear2_b (lstm2Step g s b).1

/-- One iteration of the `while` body of `generate_sentence`.  In sampling
mode the drawn token and its raw log-probability come from the randomness
oracle `rng`; the recorded log-probability is multiplied by the
active-elements indicator (`log_p *= active_batches.float()`), the `lengths`
counter adds the same indicator, and both trace lists grow by one column.  In
greedy mode the token is the argmax of the logits.  In both modes
`reached_end` is or-ed with `predicted == end_word` and the predicted token is
embedded as the next input. -/
def stepGVE (g : GVE) {B : Nat} (endw : Nat) (sample : Bool)
    (rng : Nat → Nat → Vec → Nat × ℚ) (s : GenState B) : GenState B :=
  let l1 := lstm1Step g s
  let l2 := lstm2Step g s
  let outputs := stepLogits g s
  if sample then
    let draw : Fin B → Nat × ℚ := fun b => rng s.step_idx b.val (outputs b)
    let predicted : Fin B → Nat := fun b => (draw b).1
    let active : Fin B → Bool := fun b => !(s.reached_end b)
    let log_p : Fin B → ℚ := fun b => (if active b then (1 : ℚ) else 0) * (draw b).2
    { fusion := s.fusion
      embedded_word := fun b => g.lookup (predicted b)
      lstm1_states := fun b => (l1 b).2
      lstm2_states := fun b => (l2 b).2
      reached_end := fun b => s.reached_end b || decide (predicted b = endw)
      sampled_ids := s.sampled_ids ++ [predicted]
      log_probabilities := s.log_probabilities ++ [log_p]
      lengths := fun b => s.lengths b + (if active b then 1 else 0)
      step_idx := s.step_idx + 1 }
  else
    let predicted : Fin B → Nat := fun b => argmaxIdx (outputs b)
    { fusion := s.fusion
      embedded_word := fun b => g.lookup (predicted b)
      lstm1_states := fun b => (l1 b).2
      lstm2_states := fun b => (l2 b).2
      reached_end := fun b => s.reached_end b || decide (predicted b = endw)
      sampled_ids := s.sampled_ids ++ [predicted]
      log_probabilities := s.log_probabilities
      lengths := s.lengths
      step_idx := s.step_idx + 1 }

/-- `reached_end.all()`: whether every batch element has emitted the end
token. -/
def allB {B : Nat} (p : Fin B → Bool) : Bool := decide (∀ b, p b = true)

/-- The bounded guarded loop `while not reached_end.all() and i <
max_sampling_length`, with the remaining permitted iterations as fuel (the
source increments `i` once per iteration, so fuel `n` from counter `i` is the
condition `i < max_sampling_length` with `max_sampling_length = i + n`). -/
def genLoop (g : GVE) {B : Nat} (endw : Nat) (sample : Bool)
    (rng : Nat → Nat → Vec → Nat × ℚ) : Nat → GenState B → GenState B
  | 0, s => s
  | n + 1, s =>
    if allB s.reached_end then s
    else genLoop g endw sample rng n (stepGVE g endw sample rng s)

/-- The state of `generate_sentence` just before the loop: the fused
conditioning vector is computed once (`linear1`, `relu`, concat with the
one-hot label), the start-word embedding is broadcast to the batch,
`reached_end` is all-false, the traces are empty and the counters are zero.
`labels_onehot = none` triggers `convert_onehot`, and `states` are the
caller-supplied (or zero) initial LSTM states. -/
def GVE.genInit (g : GVE) {B : Nat} (image_features : Fin B → Vec)
    (start_word : Nat) (labels : List Nat) (labels_onehot : Option (Fin B → Vec))
    (states : (Fin B → LSTMState) × (Fin B → LSTMState)) : GenState B :=
  let onehot : Fin B → Vec :=
    labels_onehot.getD (fun b => (g.convert_onehot labels).getD b.val [])
  { fusion := fun b => reluVec (linearMap g.linear1_w g.linear1_b (image_features b)) ++ onehot b
    embedded_word := fun _ => g.lookup start_word
    lstm1_states := states.1
    lstm2_states := states.2
    reached_end := fun _ => false
    sampled_ids := []
    log_probabilities := []
    lengths := fun _ => 0
    step_idx := 0 }

/-- `GVE.generate_sentence`: initialize, then run the guarded loop for at most
`max_sampling_length` iterations.  The returned `GenState` carries the
per-step token columns, and in sampling mode the log-probability columns and
the active lengths (mirroring the tuple the source returns). -/
def GVE.generate_sentence (g : GVE) {B : Nat} (image_features : Fin B → Vec)
    (start_word endw : Nat) (labels : List Nat)
    (labels_onehot : Option (Fin B → Vec))
    (states : (Fin B → LSTMState) × (Fin B → LSTMState))
    (max_sampling_length : Nat) (sample : Bool)
    (rng : Nat → Nat → Vec → Nat × ℚ) : GenState B :=
  genLoop g endw sample rng max_sampling_length
    (g.genInit image_features start_word labels labels_onehot states)

/-! ### Teacher-forced forward pass (`GVE.forward`)

`pack_padded_sequence(x, lengths, batch_first=True)` (with its mandatory
non-increasing `lengths`) keeps, for batch element `i`, exactly the first
`lengths[i]` timesteps, and stores the kept rows time-major: all surviving
rows of timestep 0, then of timestep 1, and so on.  A single-layer LSTM over
the packed sequence carries state per batch element only, so it is the
per-element recurrence over the kept prefix; `pad_packed_sequence` lays the
per-element outputs back out padded with zero rows.  Dropout
(`F.dropout(..., training=self.training)`) multiplies every scalar by a
position-indexed random factor; the random field is an explicit oracle
argument here. -/

/-- Position-indexed dropout field applied to a `(batch, time, channel)`
tensor. -/
def applyMask3 (m : Nat → Nat → Nat → ℚ) (x : List (List Vec)) : List (List Vec) :=
  x.enum.map (fun p =>
    p.2.enum.map (fun q => q.2.enum.map (fun r => m p.1 q.1 r.1 * r.2)))

/-- Position-indexed dropout field applied to a `(row, channel)` tensor. -/
def applyMask2 (m : Nat → Nat → ℚ) (x : List Vec) : List Vec :=
  x.enum.map (fun p => p.2.enum.map (fun r => m p.1 r.1 * r.2))

/-- Outputs of a recurrent cell run over a sequence from a given state (the
per-timestep hidden outputs of one packed-LSTM batch element). -/
def scanOutputs (c : Cell) : LSTMState → List Vec → List Vec
  | _, [] => []
  | st, x :: xs =>
    let o := c st x
    o.1 :: scanOutputs c o.2 xs

/-- The time-major data layout of a packed sequence built from per-element
kept prefixes: timestep 0 rows of every element still alive, then timestep 1
rows, and so on (`PackedSequence.data`). -/
def packSerialize (xss : List (List α)) : List α :=
  (List.range ((xss.map List.length).foldr max 0)).flatMap
    (fun t => xss.filterMap (fun xs => xs[t]?))

/-- Stage 1 of `GVE.forward`: embed the caption batch, apply embedding
dropout, and run `lstm1` over the packed batch — per element, the recurrence
from the zero state over the first `lengths[i]` embedded tokens. -/
def stage1Outs (g : GVE) (mE : Nat → Nat → Nat → ℚ)
    (captions : List (List Nat)) (lengths : List Nat) : List (List Vec) :=
  List.zipWith (fun emb L => scanOutputs g.lstm1 (zeroState g) (emb.take L))
    (applyMask3 mE (captions.map (fun cap => cap.map g.lookup))) lengths

/-- The remainder of `GVE.forward` after stage 1: project and activate the
image features (with dropout), concatenate the one-hot labels, re-pad the
stage-1 outputs (`pad_packed_sequence`), concatenate the broadcast fusion
vector along the channel axis, apply dropout, re-pack with the same lengths,
run `lstm2`, apply dropout to the packed stage-2 data, and project every
packed row to vocabulary logits. -/
def forwardRest (g : GVE) (mF : Nat → Nat → ℚ) (mH : Nat → Nat → Nat → ℚ)
    (mO : Nat → Nat → ℚ) (image_features : List Vec) (lengths : List Nat)
    (onehot : List Vec) (outs1 : List (List Vec)) : List Vec :=
  let feats := applyMask2 mF
    (image_features.map (fun f => reluVec (linearMap g.linear1_w g.linear1_b f)))
  let fusion := List.zipWith (· ++ ·) feats onehot
  let maxT := lengths.foldr max 0
  let padded1 := outs1.map
    (fun xs => xs ++ List.replicate (maxT - xs.length) (List.replicate g.hidden_size 0))
  let catted := applyMask3 mH
    (List.zipWith (fun f xs => xs.map (fun h => f ++ h)) fusion padded1)
  let outs2 := List.zipWith
    (fun xs L => scanOutputs g.lstm2 (zeroState g) (xs.take L)) catted lengths
  let data2 := applyMask2 mO (packSerialize outs2)
  data2.map (linearMap g.linear2_w g.linear2_b)

/-- `GVE.forward`: the teacher-forced training pass, returning one logit row
per valid (packed) timestep.  `captions` enters only through stage 1. -/
def GVE.forward (g : GVE) (mE : Nat → Nat → Nat → ℚ) (mF : Nat → Nat → ℚ)
    (mH : Nat → Nat → Nat → ℚ) (mO : Nat → Nat → ℚ)
    (image_features : List Vec) (captions : List (List Nat))
    (lengths : List Nat) (labels : List Nat)
    (labels_onehot : Option (List Vec)) : List Vec :=
  forwardRest g mF mH mO image_features lengths
    (labels_onehot.getD (g.convert_onehot labels))
    (stage1Outs g mE captions lengths)

/-! ### Weight initialization (`GVE.init_weights`) and the padding row

`nn.Embedding(vocab_size, word_embed_size, padding_idx=0)` zeroes row 0 at
construction and masks its gradient forever; `init_weights` then runs
`word_embed.weight.data.uniform_(-0.1, 0.1)`, an in-place fill of the whole
weight tensor.  The uniform sampler is an explicit oracle `draw`, and a
gradient step carries the `padding_idx` masking of `nn.Embedding`'s
backward. -/

/-- `weight.data.uniform_(-0.1, 0.1)` on a fresh `rows × cols` tensor: every
entry, row 0 included, is overwritten with the sampled value `draw i j`. -/
def uniformFill (draw : Nat → Nat → ℚ) (rows cols : Nat) : List Vec :=
  (List.range rows).map (fun i => (List.range cols).map (fun j => draw i j))

/-- Embedding-table lookup on a bare table. -/
def embLookup (table : List Vec) (i : Nat) : Vec := table.getD i []

/-- The gradient that `nn.Embedding` with `padding_idx = 0` reports: the raw
gradient with row 0 replaced by zeros (the padding row never receives
gradient signal). -/
def paddingGradMask (grad : List Vec) : List Vec :=
  grad.enum.map (fun p => if p.1 = 0 then p.2.map (fun _ => (0 : ℚ)) else p.2)

/-- One SGD update of the embedding table with the padding-masked gradient. -/
def sgdStepEmbed (lr : ℚ) (table grad : List Vec) : List Vec :=
  List.zipWith (fun row grow => List.zipWith (fun a gr => a - lr * gr) row grow)
    table (paddingGradMask grad)

/-! ### Numerically stable log-sum-exp (`GVE.log_sum_exp`)

The float computation is modelled over `ℝ`, the idealization in which
`exp`/`log` identities are exact; overflow-freedom is captured by explicit
bounds on every intermediate quantity. -/

/-- `tensor.max(dim=-1)` over a (nonempty) logit row. -/
noncomputable def maxList : List ℝ → ℝ
  | [] => 0
  | a :: rest => rest.foldl max a

/-- `GVE.log_sum_exp`: `max_val + (tensor - max_val).exp().sum(-1).log()`. -/
noncomputable def log_sum_exp (x : List ℝ) : ℝ :=
  maxList x + Real.log ((x.map (fun a => Real.exp (a - maxList x))).sum)

/-- The naive mathematical log-sum-exp, `log (Σ exp xᵢ)`, computed without
stabilization. -/
noncomputable def naiveLSE (x : List ℝ) : ℝ := Real.log ((x.map Real.exp).sum)

/-- `tensor.squeeze()`: drop every axis of size 1 from a shape. -/
def squeezeShape (sh : List Nat) : List Nat := sh.filter (fun n => decide (n ≠ 1))

/-- Shape of the returned `sampled_ids` tensor: the per-step columns are
concatenated along dim 1 into a `(B, steps)` tensor and then squeezed. -/
def GVE.generated_ids_shape (g : GVE) {B : Nat} (image_features : Fin B → Vec)
    (start_word endw : Nat) (labels : List Nat)
    (labels_onehot : Option (Fin B → Vec))
    (states : (Fin B → LSTMState) × (Fin B → LSTMState))
    (max_sampling_length : Nat) (sample : Bool)
    (rng : Nat → Nat → Vec → Nat × ℚ) : List Nat :=
  squeezeShape [B, (g.generate_sentence image_features start_word endw labels
    labels_onehot states max_sampling_length sample rng).sampled_ids.length]

/-- Shape of the returned `log_probabilities` tensor in sampling mode,
likewise concatenated into `(B, columns)` and squeezed. -/
def GVE.generated_logp_shape (g : GVE) {B : Nat} (image_features : Fin B → Vec)
    (start_word endw : Nat) (labels : List Nat)
    (labels_onehot : Option (Fin B → Vec))
    (states : (Fin B → LSTMState) × (Fin B → LSTMState))
    (max_sampling_length : Nat) (sample : Bool)
    (rng : Nat → Nat → Vec → Nat × ℚ) : List Nat :=
  squeezeShape [B, (g.generate_sentence image_features start_word endw labels
    labels_onehot states max_sampling_length sample rng).log_probabilities.length]

/-- The column of tokens predicted by one loop iteration from state `s`
(the oracle draw in sampling mode, the argmax in greedy mode). -/
def stepPredicted (g : GVE) {B : Nat} (sample : Bool)
    (rng : Nat → Nat → Vec → Nat × ℚ) (s : GenState B) : Fin B → Nat :=
  if sample then fun b => (rng s.step_idx b.val (stepLogits g s b)).1
  else fun b => argmaxIdx (stepLogits g s b)

/-- The log-probability column recorded by one sampling-mode iteration:
the oracle's log-probability masked by the active-elements indicator. -/
def stepLogP (g : GVE) {B : Nat} (rng : Nat → Nat → Vec → Nat × ℚ)
    (s : GenState B) : Fin B → ℚ :=
  fun b => (if !(s.reached_end b) then (1 : ℚ) else 0) *
    (rng s.step_idx b.val (stepLogits g s b)).2

/-- A tiny concrete weight state used to evaluate the claims on explicit
inputs: scalar hidden size, three-word vocabulary, five classes; stage 1
echoes its input, stage 2 outputs the constant `[1]`, and the output
projection then scores token 1 highest. -/
def gTest : GVE where
  word_embed := [[0], [1], [2]]
  linear1_w := [[1]]
  linear1_b := [0]
  lstm1 := fun s x => (x, s)
  lstm2 := fun s _ => ([1], s)
  linear2_w := [[0], [1], [0]]
  linear2_b := [0, 0, 0]
  hidden_size := 1
  num_classes := 5

/-- A singleton image-feature batch for concrete evaluations. -/
def featsTest : Fin 1 → Vec := fun _ => [1]

/-- Zero initial LSTM states for the singleton batch. -/
def statesTest : (Fin 1 → LSTMState) × (Fin 1 → LSTMState) :=
  (fun _ => ([0], [0]), fun _ => ([0], [0]))

/-- A sampling oracle that always draws token 0 with raw log-probability 1. -/
def rngZero : Nat → Nat → Vec → Nat × ℚ := fun _ _ _ => (0, 1)

/-! ## Lemmas about one loop iteration -/

theorem step_fusion (g : GVE) {B : Nat} (endw : Nat) (sample : Bool)
    (rng : Nat → Nat → Vec → Nat × ℚ) (s : GenState B) :
    (stepGVE g endw sample rng s).fusion = s.fusion := by
  cases sample <;> rfl

theorem step_sampled_ids (g : GVE) {B : Nat} (endw : Nat) (sample : Bool)
    (rng : Nat → Nat → Vec → Nat × ℚ) (s : GenState B) :
    (stepGVE g endw sample rng s).sampled_ids
      = s.sampled_ids ++ [stepPredicted g sample rng s] := by
  cases sample <;> rfl

theorem step_reached (g : GVE) {B : Nat} (endw : Nat) (sample : Bool)
    (rng : Nat → Nat → Vec → Nat × ℚ) (s : GenState B) :
    (stepGVE g endw sample rng s).reached_end
      = fun b => s.reached_end b || decide (stepPredicted g sample rng s b = endw) := by
  cases sample <;> rfl

theorem step_lp_sample (g : GVE) {B : Nat} (endw : Nat)
    (rng : Nat → Nat → Vec → Nat × ℚ) (s : GenState B) :
    (stepGVE g endw true rng s).log_probabilities
      = s.log_probabilities ++ [stepLogP g rng s] := rfl

theorem step_lengths_sample (g : GVE) {B : Nat} (endw : Nat)
    (rng : Nat → Nat → Vec → Nat × ℚ) (s : GenState B) :
    (stepGVE g endw true rng s).lengths
      = fun b => s.lengths b + (if !(s.reached_end b) then 1 else 0) := rfl

theorem step_lp_extend (g : GVE) {B : Nat} (endw : Nat) (sample : Bool)
    (rng : Nat → Nat → Vec → Nat × ℚ) (s : GenState B) :
    ∃ u, (stepGVE g endw sample rng s).log_probabilities
      = s.log_probabilities ++ u := by
  cases sample
  · exact ⟨[], by simp [stepGVE]⟩
  · exact ⟨[stepLogP g rng s], rfl⟩

theorem allB_eq_true {B : Nat} (p : Fin B → Bool) :
    allB p = true ↔ ∀ b, p b = true := by
  simp [allB]

theorem allB_eq_false_of {B : Nat} (p : Fin B → Bool) (b : Fin B)
    (h : p b = false) : allB p = false := by
  simp only [allB, decide_eq_false_iff_not]
  intro hall
  have hb := hall b
  rw [h] at hb
  exact Bool.false_ne_true hb

/-! ## Lemmas about the guarded loop -/

theorem genLoop_stable (g : GVE) {B : Nat} (endw : Nat) (sample : Bool)
    (rng : Nat → Nat → Vec → Nat × ℚ) (n : Nat) (s : GenState B)
    (h : allB s.reached_end = true) : genLoop g endw sample rng n s = s := by
  cases n with
  | zero => rfl
  | succ n => simp [genLoop, h]

theorem genLoop_add (g : GVE) {B : Nat} (endw : Nat) (sample : Bool)
    (rng : Nat → Nat → Vec → Nat × ℚ) (a b : Nat) (s : GenState B) :
    genLoop g endw sample rng (a + b) s
      = genLoop g endw sample rng b (genLoop g endw sample rng a s) := by
  induction a generalizing s with
  | zero => simp [genLoop]
  | succ a ih =>
    rw [Nat.succ_add]
    simp only [genLoop]
    split
    · exact (genLoop_stable g endw sample rng b s (by assumption)).symm
    · exact ih (stepGVE g endw sample rng s)

theorem genLoop_fusion (g : GVE) {B : Nat} (endw : Nat) (sample : Bool)
    (rng : Nat → Nat → Vec → Nat × ℚ) (n : Nat) (s : GenState B) :
    (genLoop g endw sample rng n s).fusion = s.fusion := by
  induction n generalizing s with
  | zero => rfl
  | succ n ih =>
    simp only [genLoop]
    split
    · rfl
    · rw [ih, step_fusion]

theorem genLoop_ids_extend (g : GVE) {B : Nat} (endw : Nat) (sample : Bool)
    (rng : Nat → Nat → Vec → Nat × ℚ) (n : Nat) (s : GenState B) :
    ∃ t, (genLoop g endw sample rng n s).sampled_ids = s.sampled_ids ++ t := by
  induction n generalizing s with
  | zero => exact ⟨[], by simp [genLoop]⟩
  | succ n ih =>
    simp only [genLoop]
    split
    · exact ⟨[], by simp⟩
    · obtain ⟨t, ht⟩ := ih (stepGVE g endw sample rng s)
      refine ⟨stepPredicted g sample rng s :: t, ?_⟩
      rw [ht, step_sampled_ids]
      simp

theorem genLoop_lp_extend (g : GVE) {B : Nat} (endw : Nat) (sample : Bool)
    (rng : Nat → Nat → Vec → Nat × ℚ) (n : Nat) (s : GenState B) :
    ∃ t, (genLoop g endw sample rng n s).log_probabilities
      = s.log_probabilities ++ t := by
  induction n generalizing s with
  | zero => exact ⟨[], by simp [genLoop]⟩
  | succ n ih =>
    simp only [genLoop]
    split
    · exact ⟨[], by simp⟩
    · obtain ⟨u, hu⟩ := step_lp_extend g endw sample rng s
      obtain ⟨t, ht⟩ := ih (stepGVE g endw sample rng s)
      exact ⟨u ++ t, by rw [ht, hu, List.append_assoc]⟩

theorem genLoop_ids_le (g : GVE) {B : Nat} (endw : Nat) (sample : Bool)
    (rng : Nat → Nat → Vec → Nat × ℚ) (n : Nat) (s : GenState B) :
    (genLoop g endw sample rng n s).sampled_ids.length
      ≤ s.sampled_ids.length + n := by
  induction n generalizing s with
  | zero => simp [genLoop]
  | succ n ih =>
    simp only [genLoop]
    split
    · omega
    · have h1 := ih (stepGVE g endw sample rng s)
      rw [step_sampled_ids] at h1
      simp at h1
      omega

theorem genLoop_stop_or_full (g : GVE) {B : Nat} (endw : Nat) (sample : Bool)
    (rng : Nat → Nat → Vec → Nat × ℚ) (n : Nat) (s : GenState B) :
    allB (genLoop g endw sample rng n s).reached_end = true
      ∨ (genLoop g endw sample rng n s).sampled_ids.length
          = s.sampled_ids.length + n := by
  induction n generalizing s with
  | zero => right; simp [genLoop]
  | succ n ih =>
    simp only [genLoop]
    split
    · left
      rw [allB_eq_true]
      intro b
      exact (allB_eq_true s.reached_end).mp (by assumption) b
    · rcases ih (stepGVE g endw sample rng s) with h | h
      · left; exact h
      · right
        rw [h, step_sampled_ids]
        simp
        omega

theorem genLoop_not_all_of_lt (g : GVE) {B : Nat} (endw : Nat) (sample : Bool)
    (rng : Nat → Nat → Vec → Nat × ℚ) (n m : Nat) (s : GenState B)
    (hm : s.sampled_ids.length + m
      < (genLoop g endw sample rng n s).sampled_ids.length) :
    allB (genLoop g endw sample rng m s).reached_end = false := by
  cases hb : allB (genLoop g endw sample rng m s).reached_end with
  | false => rfl
  | true =>
    exfalso
    have hmn : m ≤ n := by
      have := genLoop_ids_le g endw sample rng n s
      omega
    have hsplit : genLoop g endw sample rng n s
        = genLoop g endw sample rng (n - m) (genLoop g endw sample rng m s) := by
      rw [← genLoop_add]
      congr 1
      omega
    rw [hsplit, genLoop_stable g endw sample rng (n - m) _ hb] at hm
    have := genLoop_ids_le g endw sample rng m s
    omega

theorem genLoop_endfree (g : GVE) {B : Nat} (endw : Nat) (sample : Bool)
    (rng : Nat → Nat → Vec → Nat × ℚ) (n : Nat) (s : GenState B) (hB : 0 < B)
    (hre : ∀ b, s.reached_end b = false)
    (hfree : ∀ col ∈ (genLoop g endw sample rng n s).sampled_ids,
      ∀ b, col b ≠ endw) :
    (∀ b, (genLoop g endw sample rng n s).reached_end b = false)
      ∧ (genLoop g endw sample rng n s).sampled_ids.length
          = s.sampled_ids.length + n := by
  induction n generalizing s with
  | zero => exact ⟨hre, by simp [genLoop]⟩
  | succ n ih =>
    have hall : allB s.reached_end = false :=
      allB_eq_false_of s.reached_end ⟨0, hB⟩ (hre ⟨0, hB⟩)
    have hguard : (if allB s.reached_end = true then s
        else genLoop g endw sample rng n (stepGVE g endw sample rng s))
        = genLoop g endw sample rng n (stepGVE g endw sample rng s) := by
      rw [if_neg]
      simp [hall]
    simp only [genLoop] at hfree ⊢
    rw [hguard] at hfree ⊢
    have hcol : ∀ b, stepPredicted g sample rng s b ≠ endw := by
      intro b
      apply hfree
      obtain ⟨t, ht⟩ :=
        genLoop_ids_extend g endw sample rng n (stepGVE g endw sample rng s)
      rw [ht, step_sampled_ids]
      simp
    have hre' : ∀ b, (stepGVE g endw sample rng s).reached_end b = false := by
      intro b
      rw [step_reached]
      simp [hre b, hcol b]
    obtain ⟨h1, h2⟩ := ih (stepGVE g endw sample rng s) hre' hfree
    refine ⟨h1, ?_⟩
    rw [h2, step_sampled_ids]
    simp
    omega

theorem genLoop_greedy_rng (g : GVE) {B : Nat} (endw : Nat)
    (rng₁ rng₂ : Nat → Nat → Vec → Nat × ℚ) (n : Nat) (s : GenState B) :
    genLoop g endw false rng₁ n s = genLoop g endw false rng₂ n s := by
  induction n generalizing s with
  | zero => rfl
  | succ n ih =>
    simp only [genLoop]
    split
    · rfl
    · have hs : stepGVE g endw false rng₁ s = stepGVE g endw false rng₂ s := rfl
      rw [hs]
      exact ih (stepGVE g endw false rng₂ s)

theorem genLoop_after_end (g : GVE) {B : Nat} (endw : Nat)
    (rng : Nat → Nat → Vec → Nat × ℚ) (n : Nat) (s : GenState B) (b : Fin B)
    (h : s.reached_end b = true) :
    (genLoop g endw true rng n s).reached_end b = true
    ∧ (genLoop g endw true rng n s).lengths b = s.lengths b
    ∧ (∀ j, s.log_probabilities.length ≤ j →
        j < (genLoop g endw true rng n s).log_probabilities.length →
        ((genLoop g endw true rng n s).log_probabilities.getD j (fun _ => 0)) b
          = 0) := by
  induction n generalizing s with
  | zero =>
    refine ⟨h, rfl, ?_⟩
    intro j h1 h2
    simp only [genLoop] at h2
    omega
  | succ n ih =>
    simp only [genLoop]
    split
    · exact ⟨h, rfl, fun j h1 h2 => absurd h2 (by omega)⟩
    · have hr1 : (stepGVE g endw true rng s).reached_end b = true := by
        rw [step_reached]
        simp [h]
      obtain ⟨ih1, ih2, ih3⟩ := ih (stepGVE g endw true rng s) hr1
      refine ⟨ih1, ?_, ?_⟩
      · rw [ih2, step_lengths_sample]
        simp [h]
      · intro j h1 h2
        have hlen : (stepGVE g endw true rng s).log_probabilities.length
            = s.log_probabilities.length + 1 := by
          rw [step_lp_sample]
          simp
        by_cases hj : (stepGVE g endw true rng s).log_probabilities.length ≤ j
        · exact ih3 j hj h2
        · have hj' : j = s.log_probabilities.length := by omega
          obtain ⟨t, ht⟩ :=
            genLoop_lp_extend g endw true rng n (stepGVE g endw true rng s)
          rw [ht, List.getD_append _ _ _ _ (by omega), step_lp_sample, hj',
            List.getD_append_right _ _ _ _ (by omega)]
          simp [stepLogP, h]

/-! ## Claim theorems for the generation loop -/

/-- Claim C2: in sampling mode, once a batch element's reached-end flag is set
(its predicted token equalled the end token at some step `k`), the flag stays
set at every later step, the element's active-length counter never moves past
its value at step `k`, and every log-probability column recorded strictly
after step `k` carries exactly `0` for that element.  `genLoop ... k s0` is
the loop state after `k` iterations of `generate_sentence`'s loop. -/
theorem claim_C2_end_freezes_sampling (g : GVE) {B : Nat}
    (image_features : Fin B → Vec) (start_word endw : Nat) (labels : List Nat)
    (labels_onehot : Option (Fin B → Vec))
    (states : (Fin B → LSTMState) × (Fin B → LSTMState))
    (rng : Nat → Nat → Vec → Nat × ℚ) (b : Fin B) (k m : Nat) (hkm : k ≤ m)
    (hr : (genLoop g endw true rng k
      (g.genInit image_features start_word labels labels_onehot states)).reached_end b
        = true) :
    (genLoop g endw true rng m
      (g.genInit image_features start_word labels labels_onehot states)).reached_end b
        = true
    ∧ (genLoop g endw true rng m
        (g.genInit image_features start_word labels labels_onehot states)).lengths b
      = (genLoop g endw true rng k
          (g.genInit image_features start_word labels labels_onehot states)).lengths b
    ∧ (∀ j, (genLoop g endw true rng k
          (g.genInit image_features start_word labels labels_onehot states)).log_probabilities.length ≤ j →
        j < (genLoop g endw true rng m
          (g.genInit image_features start_word labels labels_onehot states)).log_probabilities.length →
        ((genLoop g endw true rng m
          (g.genInit image_features start_word labels labels_onehot states)).log_probabilities.getD j
            (fun _ => 0)) b = 0) := by
  have hsplit : genLoop g endw true rng m
      (g.genInit image_features start_word labels labels_onehot states)
      = genLoop g endw true rng (m - k) (genLoop g endw true rng k
          (g.genInit image_features start_word labels labels_onehot states)) := by
    rw [← genLoop_add]
    congr 1
    omega
  rw [hsplit]
  exact genLoop_after_end g endw rng (m - k) _ b hr

/-- Witness for C2 on a concrete run: with the always-draw-token-0 oracle and
end token 0, the singleton batch reaches the end at step 1; at step 2 the
flag is still set, the length counter is unchanged, and the later
log-probability column records 0. -/
theorem claim_C2_end_freezes_sampling_witness :
    (1 ≤ 2
      ∧ (genLoop gTest 0 true rngZero 1
          (gTest.genInit featsTest 1 [2] none statesTest)).reached_end 0 = true)
    ∧ ((genLoop gTest 0 true rngZero 2
          (gTest.genInit featsTest 1 [2] none statesTest)).reached_end 0 = true
      ∧ (genLoop gTest 0 true rngZero 2
          (gTest.genInit featsTest 1 [2] none statesTest)).lengths 0
        = (genLoop gTest 0 true rngZero 1
            (gTest.genInit featsTest 1 [2] none statesTest)).lengths 0
      ∧ (∀ j, (genLoop gTest 0 true rngZero 1
            (gTest.genInit featsTest 1 [2] none statesTest)).log_probabilities.length ≤ j →
          j < (genLoop gTest 0 true rngZero 2
            (gTest.genInit featsTest 1 [2] none statesTest)).log_probabilities.length →
          ((genLoop gTest 0 true rngZero 2
            (gTest.genInit featsTest 1 [2] none statesTest)).log_probabilities.getD j
              (fun _ => 0)) 0 = 0)) :=
  ⟨⟨by decide, by decide⟩,
    claim_C2_end_freezes_sampling gTest featsTest 1 0 [2] none statesTest
      rngZero 0 1 2 (by decide) (by decide)⟩

/-- Claim C3: `generate_sentence` with maximum step count `N` executes at most
`N` loop iterations (each appending one token column); it either stops with
every batch element flagged as finished or runs the full `N` steps; at every
point strictly before it stops, not all elements had emitted the end token
(so it stops at the *first* all-finished step, or at `N`); and when the end
token never occurs among the predicted columns the loop runs exactly `N`
steps, every returned sequence having length `N` with nothing appended. -/
theorem claim_C3_bounded_termination (g : GVE) {B : Nat}
    (image_features : Fin B → Vec) (start_word endw : Nat) (labels : List Nat)
    (labels_onehot : Option (Fin B → Vec))
    (states : (Fin B → LSTMState) × (Fin B → LSTMState)) (N : Nat)
    (sample : Bool) (rng : Nat → Nat → Vec → Nat × ℚ) (hB : 0 < B) :
    (g.generate_sentence image_features start_word endw labels labels_onehot
        states N sample rng).sampled_ids.length ≤ N
    ∧ (allB (g.generate_sentence image_features start_word endw labels
          labels_onehot states N sample rng).reached_end = true
        ∨ (g.generate_sentence image_features start_word endw labels
            labels_onehot states N sample rng).sampled_ids.length = N)
    ∧ (∀ m, m < (g.generate_sentence image_features start_word endw labels
          labels_onehot states N sample rng).sampled_ids.length →
        allB (genLoop g endw sample rng m
          (g.genInit image_features start_word labels labels_onehot
            states)).reached_end = false)
    ∧ ((∀ col ∈ (g.generate_sentence image_features start_word endw labels
          labels_onehot states N sample rng).sampled_ids, ∀ b, col b ≠ endw) →
        (g.generate_sentence image_features start_word endw labels
          labels_onehot states N sample rng).sampled_ids.length = N) := by
  have h0 : (g.genInit image_features start_word labels labels_onehot
      states).sampled_ids = [] := rfl
  refine ⟨?_, ?_, ?_, ?_⟩
  · have := genLoop_ids_le g endw sample rng N
      (g.genInit image_features start_word labels labels_onehot states)
    rw [h0] at this
    simpa [GVE.generate_sentence] using this
  · have := genLoop_stop_or_full g endw sample rng N
      (g.genInit image_features start_word labels labels_onehot states)
    rw [h0] at this
    simpa [GVE.generate_sentence] using this
  · intro m hm
    apply genLoop_not_all_of_lt g endw sample rng N m
    rw [h0]
    simpa [GVE.generate_sentence] using hm
  · intro hfree
    have := genLoop_endfree g endw sample rng N
      (g.genInit image_features start_word labels labels_onehot states) hB
      (fun _ => rfl) hfree
    rw [h0] at this
    simpa [GVE.generate_sentence] using this.2

/-- Witness for C3 on a concrete greedy run: `gTest` always predicts token 1,
the end token is 0, so with `N = 2` the run executes exactly 2 steps. -/
theorem claim_C3_bounded_termination_witness :
    (0 < 1)
    ∧ ((gTest.generate_sentence featsTest 1 0 [2] none statesTest 2 false
          rngZero).sampled_ids.length ≤ 2
      ∧ (allB (gTest.generate_sentence featsTest 1 0 [2] none statesTest 2
            false rngZero).reached_end = true
          ∨ (gTest.generate_sentence featsTest 1 0 [2] none statesTest 2 false
              rngZero).sampled_ids.length = 2)
      ∧ (∀ m, m < (gTest.generate_sentence featsTest 1 0 [2] none statesTest 2
            false rngZero).sampled_ids.length →
          allB (genLoop gTest 0 false rngZero m
            (gTest.genInit featsTest 1 [2] none statesTest)).reached_end
              = false)
      ∧ ((∀ col ∈ (gTest.generate_sentence featsTest 1 0 [2] none statesTest 2
            false rngZero).sampled_ids, ∀ b, col b ≠ 0) →
          (gTest.generate_sentence featsTest 1 0 [2] none statesTest 2 false
            rngZero).sampled_ids.length = 2)) :=
  ⟨by decide,
    claim_C3_bounded_termination gTest featsTest 1 0 [2] none statesTest 2
      false rngZero (by decide)⟩

/-- Claim C6: greedy generation is deterministic — with `sample = False` the
run never consults the randomness source, so two invocations of
`generate_sentence` with identical weights, inputs, initial states and step
bound return identical results (in particular identical token sequences). -/
theorem claim_C6_greedy_deterministic (g : GVE) {B : Nat}
    (image_features : Fin B → Vec) (start_word endw : Nat) (labels : List Nat)
    (labels_onehot : Option (Fin B → Vec))
    (states : (Fin B → LSTMState) × (Fin B → LSTMState)) (N : Nat)
    (rng₁ rng₂ : Nat → Nat → Vec → Nat × ℚ) :
    g.generate_sentence image_features start_word endw labels labels_onehot
        states N false rng₁
      = g.generate_sentence image_features start_word endw labels labels_onehot
        states N false rng₂ :=
  genLoop_greedy_rng g endw rng₁ rng₂ N _

/-- Claim C8: the fused conditioning vector (projected and activated image
features concatenated with the one-hot label) is computed once in `genInit`,
before the loop; after any number `t` of loop iterations it is unchanged, and
the vector concatenated with the stage-1 output at step `t + 1` is exactly
the initial one. -/
theorem claim_C8_fusion_frame (g : GVE) {B : Nat}
    (image_features : Fin B → Vec) (start_word endw : Nat) (labels : List Nat)
    (labels_onehot : Option (Fin B → Vec))
    (states : (Fin B → LSTMState) × (Fin B → LSTMState)) (sample : Bool)
    (rng : Nat → Nat → Vec → Nat × ℚ) (t : Nat) :
    (genLoop g endw sample rng t
        (g.genInit image_features start_word labels labels_onehot
          states)).fusion
      = (g.genInit image_features start_word labels labels_onehot
          states).fusion
    ∧ stage2Input g (genLoop g endw sample rng t
        (g.genInit image_features start_word labels labels_onehot states))
      = fun b => (g.genInit image_features start_word labels labels_onehot
            states).fusion b
          ++ (lstm1Step g (genLoop g endw sample rng t
              (g.genInit image_features start_word labels labels_onehot
                states)) b).1 := by
  refine ⟨genLoop_fusion g endw sample rng t _, ?_⟩
  funext b
  simp only [stage2Input, genLoop_fusion]

theorem genLoop_lp_length_sample (g : GVE) {B : Nat} (endw : Nat)
    (rng : Nat → Nat → Vec → Nat × ℚ) (n : Nat) (s : GenState B)
    (h : s.log_probabilities.length = s.sampled_ids.length) :
    (genLoop g endw true rng n s).log_probabilities.length
      = (genLoop g endw true rng n s).sampled_ids.length := by
  induction n generalizing s with
  | zero => simpa [genLoop] using h
  | succ n ih =>
    simp only [genLoop]
    split
    · exact h
    · apply ih
      rw [step_lp_sample, step_sampled_ids]
      simp [h]

/-- Counterexample to claim C10 as stated: with batch size 1 and
`max_sampling_length = 1` the run executes exactly one step, and the squeezed
result is a zero-dimensional scalar (`squeeze()` also removes the size-1 step
axis), not a one-dimensional vector of length 1. -/
theorem claim_C10_counterexample :
    (gTest.generate_sentence featsTest 1 0 [2] none statesTest 1 false
        rngZero).sampled_ids.length = 1
    ∧ gTest.generated_ids_shape featsTest 1 0 [2] none statesTest 1 false
        rngZero = []
    ∧ gTest.generated_ids_shape featsTest 1 0 [2] none statesTest 1 false
        rngZero
      ≠ [(gTest.generate_sentence featsTest 1 0 [2] none statesTest 1 false
          rngZero).sampled_ids.length] := by
  decide

/-- Claim C10 as amended: the returned token tensor (and in sampling mode the
log-probability tensor) is squeezed, removing every size-1 axis; hence for a
batch of size 1 that executed at least two steps, the result is a
one-dimensional vector whose length is the number of executed steps, and in
sampling mode the log-probability trace has that same length.  (With exactly
one executed step the squeeze also removes the step axis, leaving a
zero-dimensional scalar.) -/
theorem claim_C10_amended (g : GVE) (image_features : Fin 1 → Vec)
    (start_word endw : Nat) (labels : List Nat)
    (labels_onehot : Option (Fin 1 → Vec))
    (states : (Fin 1 → LSTMState) × (Fin 1 → LSTMState)) (N : Nat)
    (sample : Bool) (rng : Nat → Nat → Vec → Nat × ℚ)
    (hs : 2 ≤ (g.generate_sentence image_features start_word endw labels
      labels_onehot states N sample rng).sampled_ids.length) :
    g.generated_ids_shape image_features start_word endw labels labels_onehot
        states N sample rng
      = [(g.generate_sentence image_features start_word endw labels
          labels_onehot states N sample rng).sampled_ids.length]
    ∧ (sample = true →
        (g.generate_sentence image_features start_word endw labels
            labels_onehot states N sample rng).log_probabilities.length
          = (g.generate_sentence image_features start_word endw labels
              labels_onehot states N sample rng).sampled_ids.length
        ∧ g.generated_logp_shape image_features start_word endw labels
            labels_onehot states N sample rng
          = [(g.generate_sentence image_features start_word endw labels
              labels_onehot states N sample rng).log_probabilities.length]) := by
  have hone : ∀ n : Nat, 2 ≤ n → squeezeShape [1, n] = [n] := by
    intro n hn
    have hn1 : n ≠ 1 := by omega
    simp [squeezeShape, List.filter_cons, hn1]
  constructor
  · exact hone _ hs
  · intro hsmp
    subst hsmp
    have hlen : (g.generate_sentence image_features start_word endw labels
        labels_onehot states N true rng).log_probabilities.length
        = (g.generate_sentence image_features start_word endw labels
            labels_onehot states N true rng).sampled_ids.length :=
      genLoop_lp_length_sample g endw rng N _ rfl
    refine ⟨hlen, ?_⟩
    rw [GVE.generated_logp_shape]
    rw [hone _ (by omega)]

/-- Witness for the amended C10: a batch-1 greedy run of two steps has a
one-dimensional returned shape of length 2. -/
theorem claim_C10_amended_witness :
    2 ≤ (gTest.generate_sentence featsTest 1 0 [2] none statesTest 2 false
        rngZero).sampled_ids.length
    ∧ (gTest.generated_ids_shape featsTest 1 0 [2] none statesTest 2 false
          rngZero
        = [(gTest.generate_sentence featsTest 1 0 [2] none statesTest 2 false
            rngZero).sampled_ids.length]
      ∧ (false = true →
          (gTest.generate_sentence featsTest 1 0 [2] none statesTest 2 false
              rngZero).log_probabilities.length
            = (gTest.generate_sentence featsTest 1 0 [2] none statesTest 2
                false rngZero).sampled_ids.length
          ∧ gTest.generated_logp_shape featsTest 1 0 [2] none statesTest 2
              false rngZero
            = [(gTest.generate_sentence featsTest 1 0 [2] none statesTest 2
                false rngZero).log_probabilities.length])) :=
  ⟨by with_unfolding_all decide,
    claim_C10_amended gTest featsTest 1 0 [2] none statesTest 2 false rngZero
      (by with_unfolding_all decide)⟩

/-! ## One-hot conversion (C7) -/

/-- Claim C7: `convert_onehot` is a deterministic total scatter: for labels in
range, row `i` has length `num_classes`, holds `1` exactly at column
`labels[i]` and `0` elsewhere; in particular for label batch `[2]` with
`num_classes = 5` it returns `[0,0,1,0,0]`. -/
theorem claim_C7_convert_onehot (g : GVE) (labels : List Nat)
    (h : ∀ l ∈ labels, l < g.num_classes) :
    (g.convert_onehot labels).length = labels.length
    ∧ (∀ i, i < labels.length →
        ((g.convert_onehot labels).getD i []).length = g.num_classes
        ∧ labels.getD i 0 < g.num_classes
        ∧ ∀ j, j < g.num_classes →
            ((g.convert_onehot labels).getD i []).getD j 0
              = if j = labels.getD i 0 then 1 else 0)
    ∧ (g.num_classes = 5 → labels = [2] →
        g.convert_onehot labels = [[0, 0, 1, 0, 0]]) := by
  refine ⟨by simp [GVE.convert_onehot], ?_, ?_⟩
  · intro i hi
    have hrow : (g.convert_onehot labels).getD i []
        = (List.range g.num_classes).map
            (fun j => if j = labels.getD i 0 then (1 : ℚ) else 0) := by
      rw [GVE.convert_onehot, List.getD_eq_getElem?_getD, List.getElem?_map,
        List.getElem?_eq_getElem hi]
      simp [List.getD_eq_getElem?_getD, List.getElem?_eq_getElem hi]
    refine ⟨by rw [hrow]; simp, ?_, ?_⟩
    · have : labels.getD i 0 = labels[i] := by
        simp [List.getD_eq_getElem?_getD, List.getElem?_eq_getElem hi]
      rw [this]
      exact h _ (List.getElem_mem hi)
    · intro j hj
      rw [hrow, List.getD_eq_getElem?_getD, List.getElem?_map]
      rw [List.getElem?_range hj]
      simp
  · intro h5 hl
    subst hl
    have hr : List.range g.num_classes = [0, 1, 2, 3, 4] := by
      rw [h5]
      rfl
    simp only [GVE.convert_onehot, List.map, hr]
    norm_num

/-- Witness for C7 at the concrete instance of the claim: label batch `[2]`
with five classes. -/
theorem claim_C7_convert_onehot_witness :
    (∀ l ∈ [2], l < gTest.num_classes)
    ∧ ((gTest.convert_onehot [2]).length = ([2] : List Nat).length
      ∧ (∀ i, i < ([2] : List Nat).length →
          ((gTest.convert_onehot [2]).getD i []).length = gTest.num_classes
          ∧ ([2] : List Nat).getD i 0 < gTest.num_classes
          ∧ ∀ j, j < gTest.num_classes →
              ((gTest.convert_onehot [2]).getD i []).getD j 0
                = if j = ([2] : List Nat).getD i 0 then 1 else 0)
      ∧ (gTest.num_classes = 5 → ([2] : List Nat) = [2] →
          gTest.convert_onehot [2] = [[0, 0, 1, 0, 0]])) :=
  ⟨by decide, claim_C7_convert_onehot gTest [2] (by decide)⟩

/-! ## Weight initialization and the padding row (C1) -/

theorem zipWith_sub_zero_map (lr : ℚ) :
    ∀ (v w : List ℚ), w.length = v.length →
      List.zipWith (fun a gr => a - lr * gr) v (w.map fun _ => (0 : ℚ)) = v := by
  intro v
  induction v with
  | nil => intro w _; simp
  | cons a v ih =>
    intro w hw
    cases w with
    | nil => simp at hw
    | cons b w =>
      simp only [List.map, List.zipWith]
      rw [ih w (by simpa using hw)]
      simp

/-- The true half of the padding contract: one SGD step through the
`padding_idx`-masked gradient leaves row 0 of the embedding table exactly as
it was (whatever value initialization left there). -/
theorem sgdStepEmbed_padding_row (lr : ℚ) (table grad : List Vec)
    (h0 : 0 < table.length) (hg : 0 < grad.length)
    (hlen : (grad.getD 0 []).length = (table.getD 0 []).length) :
    embLookup (sgdStepEmbed lr table grad) 0 = embLookup table 0 := by
  cases table with
  | nil => simp at h0
  | cons t0 tr =>
    cases grad with
    | nil => simp at hg
    | cons g0 gr =>
      simp only [embLookup, sgdStepEmbed, paddingGradMask, List.enum]
      simp only [List.enumFrom, List.zipWith, List.map]
      simp only [if_pos rfl, List.getD]
      exact zipWith_sub_zero_map lr t0 g0 (by simpa [embLookup] using hlen)

/-- Claim C1 evaluated at a failing input (`code_bug`): a legitimate uniform
draw that assigns `1/20 ∈ [-0.1, 0.1]` to every entry.  `init_weights`
(`word_embed.weight.data.uniform_(-0.1, 0.1)`) overwrites the whole table,
padding row 0 included, so `lookup(0)` is `[1/20, 1/20]`, not the zero
vector — refuting the claim that the padding row is excluded from the uniform
initialization.  The final conjunct shows the row then stays at this nonzero
value under a gradient step (the no-gradient half of the claim holds, which
is exactly why the nonzero value persists). -/
theorem claim_C1_padding_row_overwritten :
    ((-1 : ℚ)/10 ≤ 1/20 ∧ (1 : ℚ)/20 ≤ 1/10)
    ∧ embLookup (uniformFill (fun _ _ => 1/20) 3 2) 0 = [1/20, 1/20]
    ∧ embLookup (uniformFill (fun _ _ => 1/20) 3 2) 0 ≠ List.replicate 2 (0 : ℚ)
    ∧ embLookup (sgdStepEmbed 1 (uniformFill (fun _ _ => 1/20) 3 2)
        (uniformFill (fun _ _ => 1) 3 2)) 0 = [1/20, 1/20] := by
  with_unfolding_all decide

/-! ## Stabilized log-sum-exp (C5) -/

theorem init_le_foldl_max (l : List ℝ) (a : ℝ) : a ≤ l.foldl max a := by
  induction l generalizing a with
  | nil => exact le_refl a
  | cons b t ih => exact le_trans (le_max_left a b) (ih (max a b))

theorem mem_le_foldl_max (l : List ℝ) (a : ℝ) :
    ∀ x ∈ l, x ≤ l.foldl max a := by
  induction l generalizing a with
  | nil => intro x hx; simp at hx
  | cons b t ih =>
    intro x hx
    rcases List.mem_cons.mp hx with h | h
    · subst h
      exact le_trans (le_max_right a x) (init_le_foldl_max t (max a x))
    · exact ih (max a b) x h

theorem le_maxList (x : List ℝ) : ∀ a ∈ x, a ≤ maxList x := by
  cases x with
  | nil => intro a ha; simp at ha
  | cons b t =>
    intro a ha
    rcases List.mem_cons.mp ha with h | h
    · subst h
      exact init_le_foldl_max t a
    · exact mem_le_foldl_max t b a h

theorem foldl_max_mem (t : List ℝ) (a : ℝ) : t.foldl max a ∈ a :: t := by
  induction t generalizing a with
  | nil => simp
  | cons b t ih =>
    rcases List.mem_cons.mp (ih (max a b)) with h | h
    · rcases max_choice a b with hm | hm
      · rw [List.foldl_cons, h, hm]
        simp
      · rw [List.foldl_cons, h, hm]
        simp
    · simp [List.foldl_cons]
      right
      right
      exact h

theorem maxList_mem (x : List ℝ) (hx : x ≠ []) : maxList x ∈ x := by
  cases x with
  | nil => exact absurd rfl hx
  | cons b t => exact foldl_max_mem t b

/-- Claim C5: the stabilized log-sum-exp `max + log (Σ exp (xᵢ - max))`
equals the naive mathematical `log (Σ exp xᵢ)` for every nonempty logit
vector; moreover every intermediate exponential is bounded by 1 (each
exponent `xᵢ - max` is nonpositive, so no overflow can occur regardless of
the magnitude of the inputs, e.g. an entry of `10^8`), and the intermediate
sum lies in `[1, n]` (so its logarithm is finite and nonnegative — no
infinity or NaN arises). -/
theorem claim_C5_log_sum_exp (x : List ℝ) (hx : x ≠ []) :
    log_sum_exp x = naiveLSE x
    ∧ (∀ a ∈ x, Real.exp (a - maxList x) ≤ 1)
    ∧ 1 ≤ (x.map (fun a => Real.exp (a - maxList x))).sum
    ∧ (x.map (fun a => Real.exp (a - maxList x))).sum ≤ (x.length : ℝ) := by
  have hexp1 : ∀ a ∈ x, Real.exp (a - maxList x) ≤ 1 := by
    intro a ha
    rw [Real.exp_le_one_iff]
    exact sub_nonpos.mpr (le_maxList x a ha)
  have hpos : ∀ y ∈ x.map (fun a => Real.exp (a - maxList x)), (0 : ℝ) ≤ y := by
    intro y hy
    obtain ⟨a, _, rfl⟩ := List.mem_map.mp hy
    exact le_of_lt (Real.exp_pos _)
  have hone : (1 : ℝ) ≤ (x.map (fun a => Real.exp (a - maxList x))).sum := by
    have hmem : Real.exp (maxList x - maxList x)
        ∈ x.map (fun a => Real.exp (a - maxList x)) :=
      List.mem_map_of_mem _ (maxList_mem x hx)
    have := List.single_le_sum hpos _ hmem
    rwa [sub_self, Real.exp_zero] at this
  refine ⟨?_, hexp1, hone, ?_⟩
  · have hS : (0 : ℝ) < (x.map (fun a => Real.exp (a - maxList x))).sum :=
      lt_of_lt_of_le zero_lt_one hone
    have hsum : (x.map Real.exp).sum
        = (x.map (fun a => Real.exp (a - maxList x))).sum
            * Real.exp (maxList x) := by
      rw [← List.sum_map_mul_right]
      congr 1
      refine List.map_congr_left ?_
      intro a _
      rw [← Real.exp_add, sub_add_cancel]
    rw [log_sum_exp, naiveLSE, hsum, Real.log_mul (ne_of_gt hS)
      (Real.exp_ne_zero _), Real.log_exp, add_comm]
  · have hle : ∀ y ∈ x.map (fun a => Real.exp (a - maxList x)), y ≤ (1 : ℝ) := by
      intro y hy
      obtain ⟨a, ha, rfl⟩ := List.mem_map.mp hy
      exact hexp1 a ha
    have := List.sum_le_card_nsmul _ _ hle
    rwa [List.length_map, nsmul_eq_mul, mul_one] at this

/-- Witness for C5 at the spec's extreme example: the logit vector
`[10^8, 0]`. -/
theorem claim_C5_log_sum_exp_witness :
    (((10 : ℝ)^8 :: [0]) ≠ [])
    ∧ (log_sum_exp ((10 : ℝ)^8 :: [0]) = naiveLSE ((10 : ℝ)^8 :: [0])
      ∧ (∀ a ∈ ((10 : ℝ)^8 :: [0]),
          Real.exp (a - maxList ((10 : ℝ)^8 :: [0])) ≤ 1)
      ∧ 1 ≤ (((10 : ℝ)^8 :: [0]).map
          (fun a => Real.exp (a - maxList ((10 : ℝ)^8 :: [0])))).sum
      ∧ (((10 : ℝ)^8 :: [0]).map
          (fun a => Real.exp (a - maxList ((10 : ℝ)^8 :: [0])))).sum
        ≤ (((10 : ℝ)^8 :: [0]).length : ℝ)) :=
  ⟨by simp, claim_C5_log_sum_exp ((10 : ℝ)^8 :: [0]) (by simp)⟩

/-! ## Counting lemmas for packed sequences (C4) -/

theorem scanOutputs_length (c : Cell) (st : LSTMState) (xs : List Vec) :
    (scanOutputs c st xs).length = xs.length := by
  induction xs generalizing st with
  | nil => rfl
  | cons x xs ih => simp [scanOutputs, ih]

theorem list_sum_map_add {α : Type} (l : List α) (f g : α → ℕ) :
    (l.map (fun a => f a + g a)).sum = (l.map f).sum + (l.map g).sum := by
  induction l with
  | nil => rfl
  | cons a l ih =>
    simp only [List.map_cons, List.sum_cons, ih]
    omega

theorem sum_indicator_range (T n : ℕ) :
    ((List.range T).map (fun t => if t < n then 1 else 0)).sum = min n T := by
  induction T with
  | zero => simp
  | succ T ih =>
    rw [List.range_succ, List.map_append, List.sum_append, ih]
    by_cases h : T < n
    · simp only [List.map_cons, List.map_nil, if_pos h]
      simp
      omega
    · simp only [List.map_cons, List.map_nil, if_neg h]
      simp
      omega

theorem filterMap_getElem_length {α : Type} (xss : List (List α)) (t : ℕ) :
    (xss.filterMap (fun xs => xs[t]?)).length
      = (xss.map (fun xs => if t < xs.length then 1 else 0)).sum := by
  induction xss with
  | nil => rfl
  | cons x xss ih =>
    rw [List.filterMap_cons]
    by_cases h : t < x.length
    · rw [List.getElem?_eq_getElem h]
      simp [ih, h]
      omega
    · rw [List.getElem?_eq_none_iff.mpr (by omega)]
      simp [ih, h]

theorem double_count {α : Type} (T : ℕ) (xss : List (List α)) :
    ((List.range T).map
        (fun t => (xss.map (fun xs => if t < xs.length then 1 else 0)).sum)).sum
      = (xss.map (fun xs => min xs.length T)).sum := by
  induction xss with
  | nil => simp
  | cons x xss ih =>
    simp only [List.map_cons, List.sum_cons]
    rw [list_sum_map_add (List.range T)
      (fun t => if t < x.length then 1 else 0)
      (fun t => (xss.map (fun xs => if t < xs.length then 1 else 0)).sum)]
    rw [sum_indicator_range, ih, Nat.min_comm]

theorem mem_le_foldr_max (l : List ℕ) : ∀ a ∈ l, a ≤ l.foldr max 0 := by
  induction l with
  | nil => intro a ha; simp at ha
  | cons b t ih =>
    intro a ha
    rcases List.mem_cons.mp ha with h | h
    · subst h
      exact le_max_left a (t.foldr max 0)
    · exact le_trans (ih a h) (le_max_right b (t.foldr max 0))

theorem packSerialize_length {α : Type} (xss : List (List α)) :
    (packSerialize xss).length = (xss.map List.length).sum := by
  rw [packSerialize, List.flatMap_def, List.length_flatten, List.map_map]
  have h1 : ((fun l => List.length l) ∘ fun t => xss.filterMap (fun xs => xs[t]?))
      = fun t => (xss.map (fun xs => if t < xs.length then 1 else 0)).sum := by
    funext t
    exact filterMap_getElem_length xss t
  rw [h1, double_count]
  refine congrArg List.sum ?_
  refine List.map_congr_left ?_
  intro xs hxs
  have : xs.length ≤ (xss.map List.length).foldr max 0 :=
    mem_le_foldr_max _ _ (List.mem_map_of_mem List.length hxs)
  omega

theorem enum_take_comm {α : Type} (l : List α) (n : ℕ) :
    (l.take n).enum = l.enum.take n := by
  apply List.ext_getElem
  · simp
  · intro i h1 h2
    simp [List.getElem_enum, List.getElem_take]

theorem enum_getElem? {α : Type} (l : List α) (i : ℕ) :
    l.enum[i]? = (l[i]?).map (fun a => (i, a)) := by
  simp [List.getElem?_enum]

theorem applyMask3_length (m : Nat → Nat → Nat → ℚ) (x : List (List Vec)) :
    (applyMask3 m x).length = x.length := by
  simp [applyMask3]

theorem applyMask2_length (m : Nat → Nat → ℚ) (x : List Vec) :
    (applyMask2 m x).length = x.length := by
  simp [applyMask2]

theorem applyMask3_getElem? (m : Nat → Nat → Nat → ℚ) (x : List (List Vec))
    (i : ℕ) :
    (applyMask3 m x)[i]?
      = (x[i]?).map (fun row => row.enum.map
          (fun q => q.2.enum.map (fun r => m i q.1 r.1 * r.2))) := by
  rw [applyMask3, List.getElem?_map, enum_getElem?]
  cases x[i]? <;> rfl

theorem applyMask3_getD_length (m : Nat → Nat → Nat → ℚ) (x : List (List Vec))
    (i : ℕ) :
    ((applyMask3 m x).getD i []).length = (x.getD i []).length := by
  rw [List.getD_eq_getElem?_getD, List.getD_eq_getElem?_getD, applyMask3_getElem?]
  cases x[i]? <;> simp

theorem zipScanTake_map_length (c : Cell) (z : LSTMState) :
    ∀ (xss : List (List Vec)) (lengths : List ℕ),
      xss.length = lengths.length →
      (∀ i, i < lengths.length →
        lengths.getD i 0 ≤ (xss.getD i []).length) →
      (List.zipWith (fun xs l => scanOutputs c z (xs.take l)) xss
          lengths).map List.length = lengths := by
  intro xss
  induction xss with
  | nil =>
    intro lengths hlen _
    cases lengths with
    | nil => rfl
    | cons l L => simp at hlen
  | cons x xss ih =>
    intro lengths hlen hL
    cases lengths with
    | nil => simp at hlen
    | cons l L =>
      simp only [List.zipWith_cons_cons, List.map_cons]
      have h0 := hL 0 (by simp)
      simp only [List.getD_cons_zero] at h0
      rw [List.cons.injEq]
      constructor
      · rw [scanOutputs_length, List.length_take]
        omega
      · refine ih L (by simpa using hlen) ?_
        intro i hi
        have := hL (i + 1) (by simpa using hi)
        simpa using this

theorem map_rows_getD_length (f : ℕ → Vec) (captions : List (List ℕ)) (i : ℕ) :
    ((captions.map (fun cap => cap.map f)).getD i []).length
      = (captions.getD i []).length := by
  rw [List.getD_eq_getElem?_getD, List.getD_eq_getElem?_getD, List.getElem?_map]
  cases captions[i]? <;> simp

theorem stage1Outs_map_length (g : GVE) (mE : Nat → Nat → Nat → ℚ)
    (captions : List (List ℕ)) (lengths : List ℕ)
    (hcap : captions.length = lengths.length)
    (hL : ∀ i, i < lengths.length →
      lengths.getD i 0 ≤ (captions.getD i []).length) :
    (stage1Outs g mE captions lengths).map List.length = lengths := by
  rw [stage1Outs]
  apply zipScanTake_map_length
  · rw [applyMask3_length, List.length_map]
    exact hcap
  · intro i hi
    rw [applyMask3_getD_length, map_rows_getD_length]
    exact hL i hi

theorem zip_cat_pad_getD_length (fusion : List Vec) (padded1 : List (List Vec))
    (i : ℕ) (hif : i < fusion.length) (hip : i < padded1.length) :
    ((List.zipWith (fun f xs => xs.map (fun h => f ++ h)) fusion
        padded1).getD i []).length
      = (padded1.getD i []).length := by
  rw [List.getD_eq_getElem?_getD, List.getD_eq_getElem?_getD,
    List.getElem?_zipWith', List.getElem?_eq_getElem hif,
    List.getElem?_eq_getElem hip]
  simp

theorem pad_map_getD_length (outs1 : List (List Vec)) (T h i : ℕ)
    (hi : i < outs1.length) :
    ((outs1.map (fun xs => xs ++ List.replicate (T - xs.length)
        (List.replicate h (0 : ℚ)))).getD i []).length
      = (outs1.getD i []).length + (T - (outs1.getD i []).length) := by
  rw [List.getD_eq_getElem?_getD, List.getElem?_map,
    List.getElem?_eq_getElem hi]
  simp [List.getD_eq_getElem?_getD, List.getElem?_eq_getElem hi]

theorem map_length_getD (outs1 : List (List Vec)) (lengths : List ℕ)
    (houts : outs1.map List.length = lengths) (i : ℕ)
    (hi : i < lengths.length) :
    (outs1.getD i []).length = lengths.getD i 0 := by
  have hi' : i < outs1.length := by
    have := congrArg List.length houts
    simp at this
    omega
  have hpt := congrArg (fun l => l.getD i 0) houts
  simp only at hpt
  rw [List.getD_eq_getElem?_getD, List.getElem?_map,
    List.getElem?_eq_getElem hi'] at hpt
  simp at hpt
  rw [List.getD_eq_getElem?_getD, List.getElem?_eq_getElem hi']
  simpa using hpt

theorem getD_le_foldr_max (lengths : List ℕ) (i : ℕ)
    (hi : i < lengths.length) :
    lengths.getD i 0 ≤ lengths.foldr max 0 := by
  apply mem_le_foldr_max
  rw [List.getD_eq_getElem?_getD, List.getElem?_eq_getElem hi]
  simp [List.getElem_mem]

theorem linearMap_length (w : List Vec) (b : Vec) (x : Vec)
    (hwb : b.length = w.length) :
    (linearMap w b x).length = w.length := by
  simp [linearMap, matVec, List.length_zipWith, hwb]

theorem catted_getD_ge (g : GVE) (mF : Nat → Nat → ℚ) (mH : Nat → Nat → Nat → ℚ)
    (image_features : List Vec) (lengths : List ℕ) (onehot : List Vec)
    (outs1 : List (List Vec)) (houts : outs1.map List.length = lengths)
    (hfeat : image_features.length = lengths.length)
    (honehot : onehot.length = lengths.length) (i : ℕ)
    (hi : i < lengths.length) :
    lengths.getD i 0
      ≤ ((applyMask3 mH (List.zipWith (fun f xs => xs.map (fun h => f ++ h))
          (List.zipWith (· ++ ·) (applyMask2 mF (image_features.map
            (fun f => reluVec (linearMap g.linear1_w g.linear1_b f)))) onehot)
          (outs1.map (fun xs => xs ++ List.replicate
            ((lengths.foldr max 0) - xs.length)
            (List.replicate g.hidden_size 0))))).getD i []).length := by
  have hn1 : outs1.length = lengths.length := by
    have := congrArg List.length houts
    simpa using this
  have hif : i < (List.zipWith (· ++ ·) (applyMask2 mF (image_features.map
      (fun f => reluVec (linearMap g.linear1_w g.linear1_b f))))
      onehot).length := by
    simp only [List.length_zipWith, applyMask2_length, List.length_map]
    omega
  have hip : i < (outs1.map (fun xs => xs ++ List.replicate
      ((lengths.foldr max 0) - xs.length)
      (List.replicate g.hidden_size 0))).length := by
    simp only [List.length_map]
    omega
  rw [applyMask3_getD_length, zip_cat_pad_getD_length _ _ _ hif hip,
    pad_map_getD_length _ _ _ _ (by omega),
    map_length_getD outs1 lengths houts i hi]
  have := getD_le_foldr_max lengths i hi
  omega

theorem forwardRest_length (g : GVE) (mF : Nat → Nat → ℚ)
    (mH : Nat → Nat → Nat → ℚ) (mO : Nat → Nat → ℚ)
    (image_features : List Vec) (lengths : List ℕ) (onehot : List Vec)
    (outs1 : List (List Vec)) (houts : outs1.map List.length = lengths)
    (hfeat : image_features.length = lengths.length)
    (honehot : onehot.length = lengths.length) :
    (forwardRest g mF mH mO image_features lengths onehot outs1).length
      = lengths.sum := by
  have hn1 : outs1.length = lengths.length := by
    have := congrArg List.length houts
    simpa using this
  simp only [forwardRest]
  rw [List.length_map, applyMask2_length, packSerialize_length]
  have hkey := zipScanTake_map_length g.lstm2 (zeroState g)
    (applyMask3 mH (List.zipWith (fun f xs => xs.map (fun h => f ++ h))
      (List.zipWith (· ++ ·) (applyMask2 mF (image_features.map
        (fun f => reluVec (linearMap g.linear1_w g.linear1_b f)))) onehot)
      (outs1.map (fun xs => xs ++ List.replicate
        ((lengths.foldr max 0) - xs.length)
        (List.replicate g.hidden_size 0)))))
    lengths
    (by
      simp only [applyMask3_length, List.length_zipWith, applyMask2_length,
        List.length_map]
      omega)
    (fun i hi => catted_getD_ge g mF mH image_features lengths onehot outs1
      houts hfeat honehot i hi)
  rw [hkey]

/-- Claim C4: under the packing preconditions (non-increasing lengths, each
within its caption row, batch dimensions agreeing), the teacher-forced
forward pass returns exactly `lengths.sum` logit rows, each of width
`vocab_size` (`output_size`), laid out in the time-major packed ordering of
`packSerialize`. -/
theorem claim_C4_forward_row_count (g : GVE) (mE : Nat → Nat → Nat → ℚ)
    (mF : Nat → Nat → ℚ) (mH : Nat → Nat → Nat → ℚ) (mO : Nat → Nat → ℚ)
    (image_features : List Vec) (captions : List (List ℕ)) (lengths : List ℕ)
    (labels : List ℕ) (labels_onehot : Option (List Vec))
    (hsort : List.Sorted (fun a b => b ≤ a) lengths)
    (hcap : captions.length = lengths.length)
    (hL : ∀ i, i < lengths.length →
      lengths.getD i 0 ≤ (captions.getD i []).length)
    (hfeat : image_features.length = lengths.length)
    (honehot : (labels_onehot.getD (g.convert_onehot labels)).length
      = lengths.length)
    (hwb : g.linear2_b.length = g.linear2_w.length) :
    (g.forward mE mF mH mO image_features captions lengths labels
        labels_onehot).length = lengths.sum
    ∧ ∀ row ∈ g.forward mE mF mH mO image_features captions lengths labels
        labels_onehot, row.length = g.output_size := by
  constructor
  · rw [GVE.forward]
    exact forwardRest_length g mF mH mO image_features lengths _ _
      (stage1Outs_map_length g mE captions lengths hcap hL) hfeat honehot
  · intro row hrow
    simp only [GVE.forward, forwardRest] at hrow
    obtain ⟨v, hv, rfl⟩ := List.mem_map.mp hrow
    rw [GVE.output_size]
    exact linearMap_length g.linear2_w g.linear2_b v hwb

/-- Witness for C4 on a concrete two-element batch with lengths `[2, 1]`:
the forward pass returns `3 = 2 + 1` rows of width `vocab_size = 3`. -/
theorem claim_C4_forward_row_count_witness :
    (List.Sorted (fun a b : ℕ => b ≤ a) [2, 1]
      ∧ ([[1, 2], [1]] : List (List ℕ)).length = ([2, 1] : List ℕ).length
      ∧ (∀ i, i < ([2, 1] : List ℕ).length →
          ([2, 1] : List ℕ).getD i 0
            ≤ (([[1, 2], [1]] : List (List ℕ)).getD i []).length)
      ∧ ([[1], [1]] : List Vec).length = ([2, 1] : List ℕ).length
      ∧ ((some [[1, 0], [0, 1]] : Option (List Vec)).getD
          (gTest.convert_onehot [2, 2])).length = ([2, 1] : List ℕ).length
      ∧ gTest.linear2_b.length = gTest.linear2_w.length)
    ∧ ((gTest.forward (fun _ _ _ => 1) (fun _ _ => 1) (fun _ _ _ => 1)
          (fun _ _ => 1) [[1], [1]] [[1, 2], [1]] [2, 1] [2, 2]
          (some [[1, 0], [0, 1]])).length = ([2, 1] : List ℕ).sum
      ∧ ∀ row ∈ gTest.forward (fun _ _ _ => 1) (fun _ _ => 1) (fun _ _ _ => 1)
          (fun _ _ => 1) [[1], [1]] [[1, 2], [1]] [2, 1] [2, 2]
          (some [[1, 0], [0, 1]]), row.length = gTest.output_size) :=
  ⟨⟨by decide, by decide, by decide, by decide, by decide, by decide⟩,
    claim_C4_forward_row_count gTest (fun _ _ _ => 1) (fun _ _ => 1)
      (fun _ _ _ => 1) (fun _ _ => 1) [[1], [1]] [[1, 2], [1]] [2, 1] [2, 2]
      (some [[1, 0], [0, 1]]) (by decide) (by decide) (by decide) (by decide)
      (by decide) (by decide)⟩

theorem stage1Outs_congr (g : GVE) (mE : Nat → Nat → Nat → ℚ)
    (captions₁ captions₂ : List (List ℕ)) (lengths : List ℕ)
    (h1 : captions₁.length = lengths.length)
    (h2 : captions₂.length = lengths.length)
    (hagree : ∀ i, i < lengths.length →
      (captions₁.getD i []).take (lengths.getD i 0)
        = (captions₂.getD i []).take (lengths.getD i 0)) :
    stage1Outs g mE captions₁ lengths = stage1Outs g mE captions₂ lengths := by
  apply List.ext_getElem?
  intro i
  rw [stage1Outs, stage1Outs, List.getElem?_zipWith', List.getElem?_zipWith',
    applyMask3_getElem?, applyMask3_getElem?, List.getElem?_map,
    List.getElem?_map]
  by_cases hi : i < lengths.length
  · have hc1 : i < captions₁.length := by omega
    have hc2 : i < captions₂.length := by omega
    rw [List.getElem?_eq_getElem hc1, List.getElem?_eq_getElem hc2,
      List.getElem?_eq_getElem hi]
    have ha := hagree i hi
    simp only [List.getD_eq_getElem?_getD, List.getElem?_eq_getElem hc1,
      List.getElem?_eq_getElem hc2, List.getElem?_eq_getElem hi,
      Option.getD_some] at ha
    have key : ∀ (caps : List (List ℕ)) (hc : i < caps.length),
        ((caps[i].map g.lookup).enum.map
            (fun q => q.2.enum.map (fun r => mE i q.1 r.1 * r.2))).take
          lengths[i]
          = ((caps[i].take lengths[i]).map g.lookup).enum.map
            (fun q => q.2.enum.map (fun r => mE i q.1 r.1 * r.2)) := by
      intro caps hc
      rw [← List.map_take, ← enum_take_comm, List.map_take]
    simp only [Option.map_some', Option.some_bind]
    rw [key captions₁ hc1, key captions₂ hc2, ha]
  · rw [List.getElem?_eq_none_iff.mpr (by omega : lengths.length ≤ i)]
    cases captions₁[i]? <;> cases captions₂[i]? <;> simp

/-- Claim C9: under the sorted-lengths packing precondition, the padded
positions of the caption batch beyond each element's declared length do not
influence any returned logit row — two caption batches that agree on the
first `lengths[i]` tokens of every element produce identical forward
outputs. -/
theorem claim_C9_padding_noninterference (g : GVE) (mE : Nat → Nat → Nat → ℚ)
    (mF : Nat → Nat → ℚ) (mH : Nat → Nat → Nat → ℚ) (mO : Nat → Nat → ℚ)
    (image_features : List Vec) (captions₁ captions₂ : List (List ℕ))
    (lengths : List ℕ) (labels : List ℕ) (labels_onehot : Option (List Vec))
    (hsort : List.Sorted (fun a b => b ≤ a) lengths)
    (h1 : captions₁.length = lengths.length)
    (h2 : captions₂.length = lengths.length)
    (hagree : ∀ i, i < lengths.length →
      (captions₁.getD i []).take (lengths.getD i 0)
        = (captions₂.getD i []).take (lengths.getD i 0)) :
    g.forward mE mF mH mO image_features captions₁ lengths labels labels_onehot
      = g.forward mE mF mH mO image_features captions₂ lengths labels
          labels_onehot := by
  rw [GVE.forward, GVE.forward,
    stage1Outs_congr g mE captions₁ captions₂ lengths h1 h2 hagree]

/-- Witness for C9: two concrete caption batches differing only at a padded
position (second element, position 2, beyond its declared length 1) yield
equal forward outputs. -/
theorem claim_C9_padding_noninterference_witness :
    (List.Sorted (fun a b : ℕ => b ≤ a) [2, 1]
      ∧ ([[1, 2], [1, 2]] : List (List ℕ)).length = ([2, 1] : List ℕ).length
      ∧ ([[1, 2], [1, 0]] : List (List ℕ)).length = ([2, 1] : List ℕ).length
      ∧ (∀ i, i < ([2, 1] : List ℕ).length →
          (([[1, 2], [1, 2]] : List (List ℕ)).getD i []).take
            (([2, 1] : List ℕ).getD i 0)
            = (([[1, 2], [1, 0]] : List (List ℕ)).getD i []).take
              (([2, 1] : List ℕ).getD i 0)))
    ∧ gTest.forward (fun _ _ _ => 1) (fun _ _ => 1) (fun _ _ _ => 1)
        (fun _ _ => 1) [[1], [1]] [[1, 2], [1, 2]] [2, 1] [2, 2]
        (some [[1, 0], [0, 1]])
      = gTest.forward (fun _ _ _ => 1) (fun _ _ => 1) (fun _ _ _ => 1)
        (fun _ _ => 1) [[1], [1]] [[1, 2], [1, 0]] [2, 1] [2, 2]
        (some [[1, 0], [0, 1]]) :=
  ⟨⟨by decide, by decide, by decide, by decide⟩,
    claim_C9_padding_noninterference gTest (fun _ _ _ => 1) (fun _ _ => 1)
      (fun _ _ _ => 1) (fun _ _ => 1) [[1], [1]] [[1, 2], [1, 2]]
      [[1, 2], [1, 0]] [2, 1] [2, 2] (some [[1, 0], [0, 1]]) (by decide)
      (by decide) (by decide) (by decide)⟩
